import Mathlib

/-!
# Verification of the call-stack discovery, ranking and deduplication engine

A shallow embedding of the vulnerability scanner's witness call-stack
engine: breadth-first stack discovery (`callStacks`), ordering
primitives (`posLess`, `csLess`, `funcLess`), ranking (`stackLess` over
`confidence` and `weight`), cross-vulnerability deduplication
(`filterCallStacks` / `uniqueCallStack`), and the position
reconciliation pass (`updateInitPositions` and its helpers).

Conventions of the embedding:
* Go `int` becomes `Int` where its value is compared (positions), `Nat`
  where it only counts (metrics).
* A nil Go pointer becomes `Option`; dereferencing a pointer the Go code
  assumes non-nil is modelled by a `match` whose `none` branch returns
  the input unchanged (the Go program would crash there, so no theorem
  relies on that branch).
* Go pointer identity on `FuncNode`s (the keys of the `seen`, `entries`,
  `visited` and `minCs` maps) is modelled by structural equality; the
  `id` field stands for the allocation, so two distinct nodes are never
  conflated.
* Go maps with nondeterministic iteration order are modelled by
  association lists in first-insertion order; `sort.SliceStable` by a
  stable insertion sort.
* The breadth-first search receives explicit fuel; the fuel only cuts
  the search short, it never adds behaviour.
-/

/-- `go/token.Position`: filename, offset, line and column. -/
structure Position where
  filename : String
  offset : Int
  line : Int
  column : Int
deriving DecidableEq, Repr

/-- `token.Position.IsValid`: a position is valid when its line is positive. -/
def Position.isValid (p : Position) : Bool := 0 < p.line

/-- One parsed source file, as the reconciliation pass reads it: the
position of its `package` statement (`Fset.Position(file.Package)`) and
its import declarations, each an unquoted path with the position
of the import specification. -/
structure GoFile where
  packagePos : Position
  imports : List (String × Position)
deriving DecidableEq, Repr

/-- `packages.Package`, restricted to the fields the engine reads:
package path, module path, and the parsed files (`Syntax`). -/
structure Package where
  pkgPath : String
  modPath : String
  files : List GoFile
deriving DecidableEq, Repr

/-- `vulncheck.FuncNode`: one function of the call graph. `id` models the
node's allocation (Go pointer identity); `pkg` is `nil`-able. The node's
incoming call sites live in `Result.callSitesOf` (adjacency), since a
call site names its caller node in turn. -/
structure FuncNode where
  id : Nat
  name : String
  recv : String
  pkg : Option Package
  pos : Option Position
deriving DecidableEq, Repr

/-- `vulncheck.CallSite`: one call edge, with its caller (`Parent`),
optional source position, the resolved flag and the textual fallback
key (`RecvType`, `Name`). -/
structure CallSite where
  parent : FuncNode
  pos : Option Position
  resolved : Bool
  recvType : String
  name : String
deriving DecidableEq, Repr

/-- `vulncheck.StackEntry`: a stack frame, pairing a function with the
call site inducing the next frame (`none` for the last frame). -/
structure StackEntry where
  Function : FuncNode
  Call : Option CallSite
deriving DecidableEq, Repr

/-- `vulncheck.CallStack`: a call stack from a client function down to a
vulnerable symbol. -/
abbrev CallStack := List StackEntry

/-- `vulncheck.Vuln`, restricted to the fields the engine reads: the OSV
identifier, the vulnerable node (`CallSink`, `none` when the symbol is
never called) and the package/module pair of the `ImportSink`. -/
structure Vuln where
  osvID : String
  callSink : Option FuncNode
  importSinkPkg : String
  importSinkMod : String
deriving DecidableEq, Repr

/-- `vulncheck.Result`, restricted to what the engine reads: the entry
functions, the vulnerabilities, and each node's incoming call sites
(the `FuncNode.CallSites` field, kept as an adjacency list). -/
structure Result where
  entryFunctions : List FuncNode
  vulns : List Vuln
  callSitesOf : List (FuncNode × List CallSite)
deriving DecidableEq, Repr

/-- A node's `CallSites` field: its incoming call sites in `res`. A node
absent from the adjacency list has none. -/
def sitesOf (res : Result) (f : FuncNode) : List CallSite :=
  match res.callSitesOf.find? (fun p => decide (p.1 = f)) with
  | some p => p.2
  | none => []

/-! ## Deterministic ordering primitives (§4.2) -/

/-- Go's bytewise lexicographic string comparison (`s1 < s2`,
`strings.Compare(s1, s2) == -1`), over the characters of the strings:
UTF-8 byte order and code-point order coincide. -/
def strLtb : List Char → List Char → Bool
  | [], [] => false
  | [], _ :: _ => true
  | _ :: _, [] => false
  | c :: cs, d :: ds => if c < d then true else if d < c then false else strLtb cs ds

/-- `strLtb` on `String`. -/
def strLt (a b : String) : Bool := strLtb a.data b.data

/-- `posLess`: compare two positions by line, then column, then filename
(`strings.Compare(...) == -1`). -/
def posLess (p1 p2 : Position) : Bool :=
  if p1.line < p2.line then true
  else if p2.line < p1.line then false
  else if p1.column < p2.column then true
  else if p2.column < p1.column then false
  else strLt p1.filename p2.filename

/-- `fmt.Sprintf("%v.%v", r, n)` for two strings. -/
def goDotted (r n : String) : String := r ++ "." ++ n

/-- `csLess`: compare two call sites by position and, per its comment,
"if needed, their string representation". The second argument is the Go
`*CallSite` that may be nil (`csLess(cs, minCs[cs.Parent])` passes the
zero value of a missing key). Faithful to the source, including its two
anomalies: the string comparison in the fast path reads `cs2.Name` on
both sides, and once both positions are present the fast path is the
only reachable one, so the trailing string comparison of the nil-aware
path is dead code (both-nil positions return `true` before reaching
it). -/
def csLess (cs1 : CallSite) : Option CallSite → Bool
  | none => true
  | some cs2 =>
    match cs1.pos, cs2.pos with
    | some p1, some p2 =>
      if posLess p1 p2 then true
      else if posLess p2 p1 then false
      else strLt (goDotted cs1.recvType cs2.name) (goDotted cs2.recvType cs2.name)
    | _, none => true
    | none, some _ => false

/-- Modelled from the spec: `FuncNode.String()` is not among the analysed
sources; §4.2 calls it "each function's full qualified string form", so
it is rendered as package path, receiver and name joined by dots. No
theorem below depends on its exact shape. -/
def FuncNode.strRep (f : FuncNode) : String :=
  let base := if f.recv = "" then f.name else goDotted f.recv f.name
  match f.pkg with
  | some p => goDotted p.pkgPath base
  | none => base

/-- `funcLess`: compare two function nodes by the positions of the
functions and, if needed, their string representation. Shares the shape
of `csLess`, dead trailing comparison included. -/
def funcLess (f1 f2 : FuncNode) : Bool :=
  match f1.pos, f2.pos with
  | some p1, some p2 =>
    if posLess p1 p2 then true
    else if posLess p2 p1 then false
    else strLt f1.strRep f2.strRep
  | _, none => true
  | none, some _ => false

/-! ## Stack metrics and the stack comparator (§4.3) -/

/-- `weight`: the number of unresolved call sites in the stack. -/
def weight (stack : CallStack) : Nat :=
  stack.foldl (fun w e =>
    match e.Call with
    | some c => if !c.resolved then w + 1 else w
    | none => w) 0

/-- `isStdPackage`: a package path is standard when it is nonempty and
its first path component contains no dot. -/
def isStdPackage (pkg : String) : Bool :=
  if pkg = "" then false
  else !((pkg.data.takeWhile (fun c => c ≠ '/')).contains '.')

/-- `confidence`: the number of frames whose function belongs to a
standard-library package (frames with a nil `Package` are skipped). -/
def confidence (stack : CallStack) : Nat :=
  stack.foldl (fun c e =>
    match e.Function.pkg with
    | some p => if isStdPackage p.pkgPath then c + 1 else c
    | none => c) 0

/-- `stackLess`: rank two stacks by confidence, then length, then
weight; when all three tie the source returns `true`. -/
def stackLess (s1 s2 : CallStack) : Bool :=
  if confidence s1 ≠ confidence s2 then decide (confidence s1 < confidence s2)
  else if s1.length ≠ s2.length then decide (s1.length < s2.length)
  else if weight s1 ≠ weight s2 then decide (weight s1 < weight s2)
  else true

/-! ## Representative call-site selection (`callsites`) -/

/-- Lookup in the `minCs` association list (`minCs[cs.Parent]`, `none`
for a missing key — Go's nil `*CallSite`). -/
def lookupCS (acc : List (FuncNode × CallSite)) (f : FuncNode) : Option CallSite :=
  match acc.find? (fun p => decide (p.1 = f)) with
  | some p => some p.2
  | none => none

/-- Store `minCs[f] = cs`: replace an existing binding in place, append
a new one (first-insertion order models the Go map's key set). -/
def setCS (acc : List (FuncNode × CallSite)) (f : FuncNode) (cs : CallSite) :
    List (FuncNode × CallSite) :=
  match acc with
  | [] => [(f, cs)]
  | p :: rest => if p.1 = f then (f, cs) :: rest else p :: setCS rest f cs

/-- One iteration of the first loop of `callsites`: skip a visited
caller, otherwise keep the `csLess`-smaller of the new site and the
caller's incumbent. -/
def minCsStep (visited : List FuncNode) (acc : List (FuncNode × CallSite))
    (cs : CallSite) : List (FuncNode × CallSite) :=
  if cs.parent ∈ visited then acc
  else if csLess cs (lookupCS acc cs.parent) then setCS acc cs.parent cs
  else acc

/-- The first loop of `callsites`: for every site whose caller is not
visited, keep the incumbent-fold minimum under `csLess` per caller. -/
def minCsFold (sites : List CallSite) (visited : List FuncNode) :
    List (FuncNode × CallSite) :=
  sites.foldl (minCsStep visited) []

/-- Insert `a` into a sorted list, after every element strictly below it
(the stable position). -/
def insertBy (less : α → α → Bool) (a : α) : List α → List α
  | [] => [a]
  | b :: l => if less b a then b :: insertBy less a l else a :: b :: l

/-- `sort.SliceStable`, as a stable insertion sort: elements the
comparator ties keep their input order. -/
def stableSortBy (less : α → α → Bool) : List α → List α
  | [] => []
  | a :: l => insertBy less a (stableSortBy less l)

/-- `callsites`: pick one call site per non-visited caller (the
`csLess`-fold incumbent), then emit them ordered by `funcLess` on the
callers. -/
def callsites (sites : List CallSite) (visited : List FuncNode) : List CallSite :=
  let minCs := minCsFold sites visited
  let fs := minCs.map (fun p => p.1)
  let fsSorted := stableSortBy funcLess fs
  fsSorted.filterMap (fun f => lookupCS minCs f)

/-! ## Stack discovery (`callStacks`) -/

/-- `callChain`: a chain of function calls. The Go code builds exactly
two shapes: the initial `{f: vulnSink}` (nil call, nil child) and
`{f: cs.Parent, call: cs, child: c}`; the constructors mirror them. -/
inductive Chain where
  | sink (f : FuncNode)
  | cons (call : CallSite) (f : FuncNode) (child : Chain)
deriving DecidableEq, Repr

/-- The chain's frontier function (`c.f`). -/
def Chain.fn : Chain → FuncNode
  | .sink f => f
  | .cons _ f _ => f

/-- `callChain.CallStack()`: materialize the chain, frontier first. -/
def Chain.toCallStack : Chain → CallStack
  | .sink f => [⟨f, none⟩]
  | .cons cs f child => ⟨f, some cs⟩ :: child.toCallStack

/-- The worklist loop of `callStacks`. The queue is popped at the front
and pushed at the back; a frontier already seen is dropped; otherwise it
is marked seen, its per-caller representative call sites are computed,
each extends the chain, chains reaching an entry are materialized, and
every extension is enqueued. The fuel bounds the number of iterations;
running out returns the stacks recorded so far. -/
def callStacksAux (res : Result) (entries : List FuncNode) :
    Nat → List Chain → List FuncNode → List CallStack → List CallStack
  | 0, _, _, stks => stks
  | _ + 1, [], _, stks => stks
  | fuel + 1, c :: queue, seen, stks =>
    if c.fn ∈ seen then callStacksAux res entries fuel queue seen stks
    else
      let seen' := c.fn :: seen
      let css := callsites (sitesOf res c.fn) seen'
      let newChains := css.map (fun cs => Chain.cons cs cs.parent c)
      let newStacks :=
        (newChains.filter (fun nc => decide (nc.fn ∈ entries))).map Chain.toCallStack
      callStacksAux res entries fuel (queue ++ newChains) seen' (stks ++ newStacks)

/-- `callStacks`: representative call stacks for the vulnerable symbol,
or `[]` when the sink is nil. -/
def callStacks (fuel : Nat) (vulnSink : Option FuncNode) (res : Result) :
    List CallStack :=
  match vulnSink with
  | none => []
  | some sink => callStacksAux res res.entryFunctions fuel [Chain.sink sink] [] []

/-- `CallStacks`: the orchestrator, one search plus stable rank per
vulnerability. The Go fan-out writes each vulnerability's result once
into a mutex-guarded map after a join; the map is modelled by the list
of vulnerabilities in input order. -/
def CallStacks (fuel : Nat) (res : Result) : List (Vuln × List CallStack) :=
  res.vulns.map (fun v => (v, stableSortBy stackLess (callStacks fuel v.callSink res)))

/-! ## Cross-vulnerability deduplication (`internal/scan/source.go`) -/

/-- The grouping key of `filterCallStacks`: OSV id, import-sink package
path, import-sink module path. -/
structure GroupKey where
  id : String
  pkg : String
  mod : String
deriving DecidableEq, Repr

/-- The key of a vulnerability (`key{id: vv.OSV.ID, pkg:
vv.ImportSink.PkgPath, mod: vv.ImportSink.Module.Path}`). -/
def vulnKey (v : Vuln) : GroupKey := ⟨v.osvID, v.importSinkPkg, v.importSinkMod⟩

/-- `uniqueCallStack`: the first stack among `css` none of whose frames
is a sink of `vg` other than `v`'s own sink (`e.Function != v.CallSink
&& vulnFuncs[e.Function]` skips the stack). -/
def uniqueCallStack (v : Vuln) (css : List CallStack) (vg : List Vuln) :
    Option CallStack :=
  let vulnFuncs : List (Option FuncNode) := vg.map (fun w => w.callSink)
  css.find? (fun cs =>
    cs.all (fun e =>
      !(decide (some e.Function ≠ v.callSink) &&
        vulnFuncs.any (fun s => decide (s = some e.Function)))))

/-- `filterCallStacks`: group the called vulnerabilities by key, then
replace every vulnerability's ranked list by its first unique stack
(or by nothing when none qualifies or its sink is nil). -/
def filterCallStacks (m : List (Vuln × List CallStack)) :
    List (Vuln × List CallStack) :=
  let vulnsPerPkg : GroupKey → List Vuln := fun k =>
    (m.map Prod.fst).filter (fun w => w.callSink.isSome && decide (vulnKey w = k))
  m.map (fun p =>
    match p.1.callSink with
    | none => (p.1, [])
    | some _ =>
      match uniqueCallStack p.1 p.2 (vulnsPerPkg (vulnKey p.1)) with
      | none => (p.1, [])
      | some vcs => (p.1, [vcs]))

/-! ## Position reconciliation (`updateInitPositions` and helpers) -/

/-- `isInit`: an (explicit, implicit or synthesized) init function. -/
def isInit (f : FuncNode) : Bool :=
  f.name = "init" || ("init#".data.isPrefixOf f.name.data)

/-- `packageStatementPos`: the position of the package statement of the
first file, or the zero position for a package with no parsed files. -/
def packageStatementPos (pkg : Package) : Position :=
  match pkg.files with
  | [] => ⟨"", 0, 0, 0⟩
  | file :: _ => file.packagePos

/-- `importStatementPos`: the position of the first import specification
matching `importPath` (files in order, imports in order), or the zero
position when no file imports it. -/
def importStatementPos (pkg : Package) (importPath : String) : Position :=
  match pkg.files.findSome? (fun file =>
      (file.imports.find? (fun imp => decide (imp.1 = importPath))).map
        (fun imp => imp.2)) with
  | some pos => pos
  | none => ⟨"", 0, 0, 0⟩

/-- The guard `pos != nil && pos.IsValid()` shared by the two
reconciliation helpers. -/
def posValidOpt : Option Position → Bool
  | some p => p.isValid
  | none => false

/-- `updateInitPosition`: give an init function with no valid position
the position of its package statement. The Go code dereferences
`fun.Package`; a nil package (which would crash Go) yields the zero
position here. -/
def updateInitPosition (se : StackEntry) : StackEntry :=
  if !isInit se.Function || posValidOpt se.Function.pos then se
  else
    { se with Function := { se.Function with pos := some (
        match se.Function.pkg with
        | some pkg => packageStatementPos pkg
        | none => ⟨"", 0, 0, 0⟩) } }

/-- `updateInitCallPosition`: give a call to an init function with no
valid call position the package-statement position (implicit init
calling an explicit one of the same package — Go compares the two
`*packages.Package` pointers, modelled structurally) or the
matching import-statement position. A frame with no call (nil, which
Go would dereference) is returned unchanged; only last frames lack a
call. -/
def updateInitCallPosition (curr : StackEntry) (next : StackEntry) : StackEntry :=
  match curr.Call with
  | none => curr
  | some call =>
    if !isInit next.Function || posValidOpt call.pos then curr
    else
      { curr with Call := some { call with pos := some (
          if curr.Function.name = "init" ∧ curr.Function.pkg = next.Function.pkg then
            match curr.Function.pkg with
            | some pkg => packageStatementPos pkg
            | none => ⟨"", 0, 0, 0⟩
          else
            match curr.Function.pkg, next.Function.pkg with
            | some pkg, some npkg => importStatementPos pkg npkg.pkgPath
            | _, _ => ⟨"", 0, 0, 0⟩) } }

/-- The inner loop of `updateInitPositions` over one stack: each frame's
function position is reconciled, then — except for the last frame — its
call position, reading the not-yet-reconciled next frame (the Go loop
passes `cs[i+1]` by value before iteration `i+1` touches it). -/
def updateEntries : List StackEntry → List StackEntry
  | [] => []
  | [e] => [updateInitPosition e]
  | e :: next :: rest =>
    updateInitCallPosition (updateInitPosition e) next :: updateEntries (next :: rest)

/-- `updateInitPositions`: reconcile every stack of every vulnerability. -/
def updateInitPositions (m : List (Vuln × List CallStack)) :
    List (Vuln × List CallStack) :=
  m.map (fun p => (p.1, p.2.map updateEntries))

/-! ## Concrete instances used by counterexamples and witnesses -/

def exPosA : Position := ⟨"a.go", 0, 5, 1⟩

def exPosB : Position := ⟨"a.go", 0, 7, 1⟩

def exPkgM : Package := ⟨"example.com/m", "example.com/m", []⟩

def exPkgV : Package := ⟨"example.com/v", "example.com/v", []⟩

def exMain : FuncNode := ⟨0, "main", "", some exPkgM, some exPosA⟩

def exSink : FuncNode := ⟨1, "Vuln", "", some exPkgV, some exPosB⟩

def exCallMS : CallSite := ⟨exMain, some exPosA, true, "", "Vuln"⟩

def exRes : Result := ⟨[exMain], [], [(exSink, [exCallMS]), (exMain, [])]⟩

def exStack : CallStack := [⟨exMain, some exCallMS⟩, ⟨exSink, none⟩]

def exIsolated : Result := ⟨[exMain], [], [(exMain, [])]⟩

def exTieA : CallStack := [⟨⟨10, "f", "", none, none⟩, none⟩]

def exTieB : CallStack := [⟨⟨11, "g", "", none, none⟩, none⟩]

def exCsA : CallSite := ⟨exMain, none, true, "A", "a"⟩

def exCsB : CallSite := ⟨exMain, none, true, "B", "b"⟩

def exCsPa : CallSite := ⟨exMain, some exPosA, true, "A", "a"⟩

def exCsPz : CallSite := ⟨exMain, some exPosA, true, "A", "z"⟩

def exCaller : FuncNode := ⟨2, "caller", "", none, some exPosA⟩

def exSiteA : CallSite := ⟨exCaller, none, true, "A", "a"⟩

def exSiteB : CallSite := ⟨exCaller, none, true, "B", "b"⟩

def exPkgP : Package := ⟨"p", "m", [⟨⟨"p.go", 0, 3, 1⟩, []⟩]⟩

def exInitF : FuncNode := ⟨3, "init", "", some exPkgP, some ⟨"", 0, 0, 0⟩⟩

def exInitEntry : StackEntry := ⟨exInitF, none⟩

def exInitVuln : Vuln := ⟨"GO-1", some exInitF, "p", "m"⟩

def exVulnNone : Vuln := ⟨"GO-0", none, "p", "m"⟩

def exResNone : Result := ⟨[], [exVulnNone], []⟩

/-! ## C1 — the stack comparator -/

/-- C1 (counterexample): two distinct stacks with equal confidence,
equal length and equal weight each compare strictly below the other —
`stackLess` returns `true` on a full tie, so a tied pair is not
"declared equal" in the sense of neither preceding the other. -/
theorem stackLess_tie_returns_true :
    confidence exTieA = confidence exTieB ∧ exTieA.length = exTieB.length ∧
    weight exTieA = weight exTieB ∧ exTieA ≠ exTieB ∧
    stackLess exTieA exTieB = true ∧ stackLess exTieB exTieA = true := by
  decide

/-- C1 (amended): `stackLess` orders stacks by confidence ascending,
then length ascending, then weight ascending; when confidence, length
and weight all tie it returns `true` (each tied stack compares below the
other, the stable sort preserving discovery order among ties), rather
than declaring the pair equal. -/
theorem stackLess_characterization (s1 s2 : CallStack) :
    stackLess s1 s2 = true ↔
      confidence s1 < confidence s2 ∨
        (confidence s1 = confidence s2 ∧
          (s1.length < s2.length ∨
            (s1.length = s2.length ∧
              (weight s1 < weight s2 ∨ weight s1 = weight s2)))) := by
  unfold stackLess
  by_cases h1 : confidence s1 = confidence s2 <;>
    by_cases h2 : s1.length = s2.length <;>
      by_cases h3 : weight s1 = weight s2 <;>
        simp [h1, h2, h3]

/-! ## C6 — the call-site order -/

/-- C6: the fallback of `csLess` diverges from the documented
lexicographic comparison of `receiverType.calleeName` strings. With both
positions absent it returns `true` for either order of the two sites
(`exCsA`/`exCsB` have distinct keys "A.a" and "B.b", so a lexicographic
fallback would order them strictly one way); with both positions
present and equal it builds both strings from `cs2`'s name, so sites
sharing a receiver type ("A.a" versus "A.z") compare `false` in both
orders even though their keys differ. -/
theorem csLess_fallback_divergence :
    csLess exCsA (some exCsB) = true ∧ csLess exCsB (some exCsA) = true ∧
    goDotted exCsA.recvType exCsA.name ≠ goDotted exCsB.recvType exCsB.name ∧
    csLess exCsPa (some exCsPz) = false ∧ csLess exCsPz (some exCsPa) = false ∧
    strLt (goDotted exCsPa.recvType exCsPa.name)
      (goDotted exCsPz.recvType exCsPz.name) = true := by
  decide

/-! ## C8 — nil sink handling -/

/-- C8: a nil vulnerable sink makes `callStacks` return the empty
result, and the orchestrator `CallStacks` maps every vulnerability
whose `CallSink` is nil to the empty stack list. -/
theorem callStacks_nil_sink (fuel : Nat) (res : Result) :
    callStacks fuel none res = [] ∧
    ∀ p ∈ CallStacks fuel res, p.1.callSink = none → p.2 = [] := by
  refine ⟨rfl, ?_⟩
  intro p hp hnone
  simp only [CallStacks, List.mem_map] at hp
  obtain ⟨v, _, rfl⟩ := hp
  simp only at hnone ⊢
  rw [hnone]
  rfl

/-- C8 (witness): the nil-sink vulnerability of `exResNone` is mapped
to the empty stack list. -/
theorem callStacks_nil_sink_witness :
    ((exVulnNone, ([] : List CallStack)) ∈ CallStacks 3 exResNone) ∧
    (exVulnNone, ([] : List CallStack)).2 = [] :=
  ⟨by decide, (callStacks_nil_sink 3 exResNone).2 (exVulnNone, []) (by decide) rfl⟩

/-! ## C10 — frames without a package never count towards confidence -/

lemma foldl_count_shift {α : Type} (f : Nat → α → Nat)
    (hf : ∀ a e, f a e = a + f 0 e) :
    ∀ (s : List α) (a : Nat), s.foldl f a = a + s.foldl f 0 := by
  intro s
  induction s with
  | nil => intro a; simp
  | cons e t ih =>
    intro a
    simp only [List.foldl_cons]
    rw [ih (f a e), ih (f 0 e), hf a e]
    omega

lemma confidence_cons (e : StackEntry) (s : CallStack) :
    confidence (e :: s) =
      (match e.Function.pkg with
       | some p => if isStdPackage p.pkgPath then 1 else 0
       | none => 0) + confidence s := by
  unfold confidence
  rw [List.foldl_cons]
  rw [foldl_count_shift _ ?hf s]
  case hf =>
    intro a x
    rcases x.Function.pkg with _ | p
    · simp
    · by_cases h : isStdPackage p.pkgPath <;> simp [h]

/-- C10: `isStdPackage` returns `false` for the empty package path even
though the empty path contains no dot, and a frame whose function has a
nil package or an empty package path never contributes to
`confidence`. -/
theorem confidence_ignores_missing_package :
    isStdPackage "" = false ∧ ("".data.contains '.') = false ∧
    ∀ (e : StackEntry) (s : CallStack),
      (e.Function.pkg = none ∨ ∃ p, e.Function.pkg = some p ∧ p.pkgPath = "") →
      confidence (e :: s) = confidence s := by
  refine ⟨by decide, by decide, ?_⟩
  intro e s h
  rw [confidence_cons]
  rcases h with h | ⟨p, hp, hpath⟩
  · simp [h]
  · simp [hp, hpath, isStdPackage]

/-- C10 (witness): a concrete frame with a nil package leaves the
confidence of a concrete stack unchanged. -/
theorem confidence_ignores_missing_package_witness :
    confidence (⟨⟨20, "f", "", none, none⟩, none⟩ :: exTieA) = confidence exTieA :=
  confidence_ignores_missing_package.2.2 ⟨⟨20, "f", "", none, none⟩, none⟩ exTieA
    (Or.inl rfl)

/-! ## C4 — counterexample for representative call-site minimality -/

/-- C4 (counterexample): two call sites of the same caller, both with
absent positions. `callsites` returns the later one, yet the earlier one
compares strictly below it under `csLess` (with absent positions
`csLess` holds in both directions), so the returned site is not the
smallest of the caller's sites under `csLess`. -/
theorem callsites_not_minimal :
    callsites [exSiteA, exSiteB] [] = [exSiteB] ∧
    exSiteA ≠ exSiteB ∧ exSiteA.parent = exSiteB.parent ∧
    csLess exSiteA (some exSiteB) = true := by
  decide

/-! ## C5 — counterexample for position-overwrite -/

/-- C5 (counterexample): a stack entry whose init function carries a
non-nil but invalid position (line 0) before reconciliation has that
position overwritten by `updateInitPositions` with the package-statement
position, so reconciliation does write into a position that was not
absent. -/
theorem updateInitPositions_overwrites_invalid :
    exInitEntry.Function.pos = some ⟨"", 0, 0, 0⟩ ∧
    updateInitPositions [(exInitVuln, [[exInitEntry]])] =
      [(exInitVuln,
        [[⟨{ exInitF with pos := some ⟨"p.go", 0, 3, 1⟩ }, none⟩]])] := by
  decide

/-! ## C7 — counterexample: an entry that is also the sink -/

/-- C7 (counterexample): `exMain` is an entry function and is the sink,
yet `callStacks` returns no stack at all — the initial chain is never
checked against the entry set, so no one-element stack is produced. -/
theorem callStacks_entry_sink_empty :
    exMain ∈ exIsolated.entryFunctions ∧
    callStacks 5 (some exMain) exIsolated = [] := by
  decide

/-! ## Shared lemmas about call-site selection and the search -/

lemma mem_setCS {acc : List (FuncNode × CallSite)} {f : FuncNode} {cs : CallSite}
    {pr : FuncNode × CallSite} (h : pr ∈ setCS acc f cs) :
    pr = (f, cs) ∨ pr ∈ acc := by
  induction acc with
  | nil => simpa [setCS] using h
  | cons q rest ih =>
    unfold setCS at h
    split at h
    · rcases List.mem_cons.1 h with h | h
      · exact Or.inl h
      · exact Or.inr (List.mem_cons_of_mem _ h)
    · rcases List.mem_cons.1 h with h | h
      · exact Or.inr (h ▸ List.mem_cons_self _ _)
      · rcases ih h with h | h
        · exact Or.inl h
        · exact Or.inr (List.mem_cons_of_mem _ h)

lemma lookupCS_mem {acc : List (FuncNode × CallSite)} {f : FuncNode}
    {cs : CallSite} (h : lookupCS acc f = some cs) : (f, cs) ∈ acc := by
  unfold lookupCS at h
  split at h
  · rename_i q hq
    obtain rfl : q.2 = cs := by injection h
    have hmem := List.mem_of_find?_eq_some hq
    have hqf : q.1 = f := by
      have := List.find?_some hq
      simpa using this
    have : q = (f, q.2) := by
      rw [← hqf]
    rwa [this] at hmem
  · cases h

lemma mem_minCsStep {visited : List FuncNode} {acc : List (FuncNode × CallSite)}
    {cs : CallSite} {pr : FuncNode × CallSite} (h : pr ∈ minCsStep visited acc cs) :
    (pr = (cs.parent, cs) ∧ cs.parent ∉ visited) ∨ pr ∈ acc := by
  unfold minCsStep at h
  split at h
  · exact Or.inr h
  · rename_i hvis
    split at h
    · rcases mem_setCS h with h | h
      · exact Or.inl ⟨h, hvis⟩
      · exact Or.inr h
    · exact Or.inr h

lemma mem_minCsFold {sites : List CallSite} {visited : List FuncNode}
    {pr : FuncNode × CallSite} (h : pr ∈ minCsFold sites visited) :
    pr.2 ∈ sites ∧ pr.2.parent = pr.1 ∧ pr.1 ∉ visited := by
  suffices H : ∀ (l : List CallSite) (acc : List (FuncNode × CallSite)),
      pr ∈ l.foldl (minCsStep visited) acc →
      pr ∈ acc ∨ (pr.2 ∈ l ∧ pr.2.parent = pr.1 ∧ pr.1 ∉ visited) by
    rcases H sites [] h with h' | h'
    · simp at h'
    · exact h'
  intro l
  induction l with
  | nil => intro acc h'; exact Or.inl h'
  | cons s rest ih =>
    intro acc h'
    rw [List.foldl_cons] at h'
    rcases ih _ h' with h'' | h''
    · rcases mem_minCsStep h'' with ⟨rfl, hnv⟩ | h3
      · exact Or.inr ⟨List.mem_cons_self _ _, rfl, hnv⟩
      · exact Or.inl h3
    · exact Or.inr ⟨List.mem_cons_of_mem _ h''.1, h''.2⟩

lemma callsites_sub {sites : List CallSite} {visited : List FuncNode}
    {cs : CallSite} (h : cs ∈ callsites sites visited) :
    cs ∈ sites ∧ cs.parent ∉ visited := by
  simp only [callsites, List.mem_filterMap] at h
  obtain ⟨f, _, hf⟩ := h
  have h2 := mem_minCsFold (lookupCS_mem hf)
  exact ⟨h2.1, h2.2.1 ▸ h2.2.2⟩

lemma Chain.toCallStack_ne_nil (c : Chain) : c.toCallStack ≠ [] := by
  cases c <;> simp [Chain.toCallStack]

lemma callStacksAux_nil_queue (res : Result) (entries : List FuncNode)
    (fuel : Nat) (seen : List FuncNode) (stks : List CallStack) :
    callStacksAux res entries fuel [] seen stks = stks := by
  cases fuel <;> rfl

lemma callStacksAux_cons (res : Result) (entries : List FuncNode) (fuel : Nat)
    (c : Chain) (queue : List Chain) (seen : List FuncNode)
    (stks : List CallStack) :
    callStacksAux res entries (fuel + 1) (c :: queue) seen stks =
      if c.fn ∈ seen then callStacksAux res entries fuel queue seen stks
      else
        callStacksAux res entries fuel
          (queue ++ (callsites (sitesOf res c.fn) (c.fn :: seen)).map
            (fun cs => Chain.cons cs cs.parent c))
          (c.fn :: seen)
          (stks ++ (((callsites (sitesOf res c.fn) (c.fn :: seen)).map
              (fun cs => Chain.cons cs cs.parent c)).filter
                (fun nc => decide (nc.fn ∈ entries))).map Chain.toCallStack) := rfl

lemma callStacksAux_length (res : Result) (entries : List FuncNode) :
    ∀ (fuel : Nat) (queue : List Chain) (seen : List FuncNode)
      (stks : List CallStack),
      (∀ s ∈ stks, 2 ≤ s.length) →
      ∀ s ∈ callStacksAux res entries fuel queue seen stks, 2 ≤ s.length := by
  intro fuel
  induction fuel with
  | zero =>
    intro queue seen stks h s hs
    rw [callStacksAux] at hs
    exact h s hs
  | succ n ih =>
    intro queue seen stks h s hs
    match queue with
    | [] =>
      rw [callStacksAux] at hs
      exact h s hs
    | c :: rest =>
      rw [callStacksAux_cons] at hs
      by_cases hc : c.fn ∈ seen
      · rw [if_pos hc] at hs
        exact ih rest seen stks h s hs
      · rw [if_neg hc] at hs
        refine ih _ _ _ ?_ s hs
        intro t ht
        rcases List.mem_append.1 ht with ht | ht
        · exact h t ht
        · simp only [List.mem_map, List.mem_filter] at ht
          obtain ⟨nc, ⟨hnc, _⟩, rfl⟩ := ht
          obtain ⟨cs, _, rfl⟩ := hnc
          simp only [Chain.toCallStack, List.length_cons]
          have hpos := List.length_pos.2 (Chain.toCallStack_ne_nil c)
          omega

/-! ## C7 — behaviour when the sink is an entry function -/

/-- C7 (amended): the stack finder never returns a one-element stack —
every returned stack has at least two entries, because a stack is only
recorded when a chain is extended by an incoming call edge whose caller
is an entry function; in particular, when the sink (entry or not) has no
incoming call sites the result is empty, so a sink that is itself an
entry function does not yield a one-element stack. -/
theorem callStacks_never_singleton :
    (∀ (fuel : Nat) (res : Result) (sink : FuncNode) (s : CallStack),
        s ∈ callStacks fuel (some sink) res → 2 ≤ s.length) ∧
    (∀ (fuel : Nat) (res : Result) (sink : FuncNode),
        sitesOf res sink = [] → callStacks fuel (some sink) res = []) := by
  constructor
  · intro fuel res sink s hs
    unfold callStacks at hs
    refine callStacksAux_length res res.entryFunctions fuel _ _ _ ?_ s hs
    intro t ht
    simp at ht
  · intro fuel res sink hsites
    show callStacksAux res res.entryFunctions fuel [Chain.sink sink] [] [] = []
    cases fuel with
    | zero => rfl
    | succ n =>
      rw [callStacksAux_cons]
      rw [if_neg (List.not_mem_nil _)]
      simp only [Chain.fn, hsites]
      rw [show callsites ([] : List CallSite) (sink :: ([] : List FuncNode)) = []
        from rfl]
      simp only [List.map_nil, List.filter_nil, List.append_nil]
      exact callStacksAux_nil_queue res res.entryFunctions n _ _

/-- C7 (witness): the two-frame stack of `exRes` is returned (length 2),
and the entry-equals-sink graph `exIsolated` yields no stacks. -/
theorem callStacks_never_singleton_witness :
    2 ≤ exStack.length ∧ callStacks 4 (some exMain) exIsolated = [] :=
  ⟨callStacks_never_singleton.1 5 exRes exSink exStack (by decide),
   callStacks_never_singleton.2 4 exIsolated exMain (by decide)⟩

/-! ## C2 — structural invariant of returned stacks -/

/-- The connectivity invariant of a call stack: nonempty, its last entry
is the sink with no call, and every other entry carries a call site
whose `Parent` is that entry's function and which is an incoming call
site of the next entry's function. -/
def linked (res : Result) (sink : FuncNode) : CallStack → Prop
  | [] => False
  | [e] => e.Function = sink ∧ e.Call = none
  | e :: next :: rest =>
    (∃ cs, e.Call = some cs ∧ cs.parent = e.Function ∧
      cs ∈ sitesOf res next.Function) ∧
    linked res sink (next :: rest)

lemma linked_getLast (res : Result) (sink : FuncNode) :
    ∀ s, linked res sink s →
      ∃ l, s.getLast? = some l ∧ l.Function = sink ∧ l.Call = none
  | [], h => absurd h (by simp [linked])
  | [e], h => ⟨e, rfl, h.1, h.2⟩
  | e :: next :: rest, h => by
    rw [List.getLast?_cons_cons]
    exact linked_getLast res sink (next :: rest) h.2

lemma linked_index (res : Result) (sink : FuncNode) :
    ∀ (s : CallStack), linked res sink s →
      ∀ (i : Nat) (h1 : i + 1 < s.length),
        ∃ cs, (s.get ⟨i, by omega⟩).Call = some cs ∧
          cs.parent = (s.get ⟨i, by omega⟩).Function ∧
          cs ∈ sitesOf res (s.get ⟨i + 1, h1⟩).Function
  | [], h, _, _ => absurd h (by simp [linked])
  | [e], _, i, h1 => by simp at h1
  | e :: next :: rest, h, i, h1 => by
    cases i with
    | zero => exact h.1
    | succ j =>
      have h2 : j + 1 < (next :: rest).length := by
        simpa [Nat.succ_lt_succ_iff] using h1
      exact linked_index res sink (next :: rest) h.2 j h2

lemma Chain.toCallStack_head (c : Chain) :
    ∃ e rest, c.toCallStack = e :: rest ∧ e.Function = c.fn := by
  cases c with
  | sink f => exact ⟨⟨f, none⟩, [], rfl, rfl⟩
  | cons cs f child => exact ⟨⟨f, some cs⟩, child.toCallStack, rfl, rfl⟩

/-- A chain is well-formed when its materialization is `linked`. -/
def chainOk (res : Result) (sink : FuncNode) (c : Chain) : Prop :=
  linked res sink c.toCallStack

lemma chainOk_sink (res : Result) (sink : FuncNode) :
    chainOk res sink (Chain.sink sink) := by
  show linked res sink [⟨sink, none⟩]
  exact ⟨rfl, rfl⟩

lemma chainOk_cons {res : Result} {sink : FuncNode} {c : Chain} {cs : CallSite}
    (hcs : cs ∈ sitesOf res c.fn) (hc : chainOk res sink c) :
    chainOk res sink (Chain.cons cs cs.parent c) := by
  unfold chainOk at hc ⊢
  obtain ⟨e, rest, heq, hef⟩ := Chain.toCallStack_head c
  show linked res sink (⟨cs.parent, some cs⟩ :: c.toCallStack)
  rw [heq] at hc ⊢
  refine ⟨⟨cs, rfl, rfl, ?_⟩, hc⟩
  rw [hef]
  exact hcs

/-- The full conclusion of C2 for one stack. -/
def stackWitnessOk (res : Result) (sink : FuncNode) (s : CallStack) : Prop :=
  (∃ e, s.head? = some e ∧ e.Function ∈ res.entryFunctions) ∧
  (∃ l, s.getLast? = some l ∧ l.Function = sink ∧ l.Call = none) ∧
  linked res sink s

lemma callStacksAux_invariant (res : Result) (sink : FuncNode) :
    ∀ (fuel : Nat) (queue : List Chain) (seen : List FuncNode)
      (stks : List CallStack),
      (∀ c ∈ queue, chainOk res sink c) →
      (∀ s ∈ stks, stackWitnessOk res sink s) →
      ∀ s ∈ callStacksAux res res.entryFunctions fuel queue seen stks,
        stackWitnessOk res sink s := by
  intro fuel
  induction fuel with
  | zero =>
    intro queue seen stks _ h s hs
    rw [callStacksAux] at hs
    exact h s hs
  | succ n ih =>
    intro queue seen stks hq h s hs
    match queue with
    | [] =>
      rw [callStacksAux] at hs
      exact h s hs
    | c :: rest =>
      rw [callStacksAux_cons] at hs
      by_cases hc : c.fn ∈ seen
      · rw [if_pos hc] at hs
        exact ih rest seen stks (fun d hd => hq d (List.mem_cons_of_mem _ hd)) h s hs
      · rw [if_neg hc] at hs
        refine ih _ _ _ ?_ ?_ s hs
        · intro d hd
          rcases List.mem_append.1 hd with hd | hd
          · exact hq d (List.mem_cons_of_mem _ hd)
          · simp only [List.mem_map] at hd
            obtain ⟨cs, hcs, rfl⟩ := hd
            exact chainOk_cons (callsites_sub hcs).1 (hq c (List.mem_cons_self _ _))
        · intro t ht
          rcases List.mem_append.1 ht with ht | ht
          · exact h t ht
          · simp only [List.mem_map, List.mem_filter] at ht
            obtain ⟨nc, ⟨hnc, hent⟩, rfl⟩ := ht
            obtain ⟨cs, hcs, rfl⟩ := hnc
            have hok : chainOk res sink (Chain.cons cs cs.parent c) :=
              chainOk_cons (callsites_sub hcs).1 (hq c (List.mem_cons_self _ _))
            refine ⟨⟨⟨cs.parent, some cs⟩, rfl, ?_⟩, linked_getLast res sink _ hok, hok⟩
            simpa [Chain.fn] using hent

/-- C2: every stack returned by `callStacks` for a non-nil sink starts
at a designated entry function, ends at the sink with a nil call, and
every non-last entry's call site has that entry's function as its
`Parent` and is an incoming call site of the next entry's function. -/
theorem callStacks_stack_invariant (fuel : Nat) (res : Result) (sink : FuncNode) :
    ∀ s ∈ callStacks fuel (some sink) res,
      (∃ e, s.head? = some e ∧ e.Function ∈ res.entryFunctions) ∧
      (∃ l, s.getLast? = some l ∧ l.Function = sink ∧ l.Call = none) ∧
      ∀ (i : Nat) (h1 : i + 1 < s.length),
        ∃ cs, (s.get ⟨i, by omega⟩).Call = some cs ∧
          cs.parent = (s.get ⟨i, by omega⟩).Function ∧
          cs ∈ sitesOf res (s.get ⟨i + 1, h1⟩).Function := by
  intro s hs
  have hw : stackWitnessOk res sink s := by
    refine callStacksAux_invariant res sink fuel [Chain.sink sink] [] [] ?_ ?_ s hs
    · intro c hc
      rcases List.mem_cons.1 hc with rfl | hc
      · exact chainOk_sink res sink
      · simp at hc
    · intro t ht
      simp at ht
  exact ⟨hw.1, hw.2.1, linked_index res sink s hw.2.2⟩

/-- C2 (witness): the invariant holds for the concrete stack returned on
the two-node graph `exRes`. -/
theorem callStacks_stack_invariant_witness :
    (∃ e, exStack.head? = some e ∧ e.Function ∈ exRes.entryFunctions) ∧
    (∃ l, exStack.getLast? = some l ∧ l.Function = exSink ∧ l.Call = none) ∧
    ∀ (i : Nat) (h1 : i + 1 < exStack.length),
      ∃ cs, (exStack.get ⟨i, by omega⟩).Call = some cs ∧
        cs.parent = (exStack.get ⟨i, by omega⟩).Function ∧
        cs ∈ sitesOf exRes (exStack.get ⟨i + 1, h1⟩).Function :=
  callStacks_stack_invariant 5 exRes exSink exStack (by decide)

/-! ## C3 and C9 — the cross-vulnerability deduplicator -/

/-- The claim's keep-condition, written from its words: a stack
qualifies when it contains no frame whose function is a same-group
vulnerability's `CallSink`, frames equal to the vulnerability's own sink
being always allowed. -/
def specUniqueOk (groupSinks : List (Option FuncNode)) (own : Option FuncNode)
    (cs : CallStack) : Bool :=
  cs.all (fun e => decide (some e.Function = own) ||
    !(groupSinks.any (fun s => decide (s = some e.Function))))

/-- The same-group members of a vulnerability: the map's vulnerabilities
with a non-nil sink and the same (OSV id, package, module) key. -/
def sameGroup (m : List (Vuln × List CallStack)) (v : Vuln) : List Vuln :=
  (m.map Prod.fst).filter (fun w => w.callSink.isSome && decide (vulnKey w = vulnKey v))

/-- The claim's selection, written from its words: nothing for a nil
sink, otherwise the first ranked stack satisfying `specUniqueOk` (or
nothing when no candidate qualifies). -/
def specSelect (m : List (Vuln × List CallStack)) (p : Vuln × List CallStack) :
    List CallStack :=
  match p.1.callSink with
  | none => []
  | some _ =>
    match p.2.find?
        (specUniqueOk ((sameGroup m p.1).map (fun w => w.callSink)) p.1.callSink) with
    | none => []
    | some cs => [cs]

lemma uniqueCallStack_eq_find (v : Vuln) (css : List CallStack) (vg : List Vuln) :
    uniqueCallStack v css vg =
      css.find? (specUniqueOk (vg.map (fun w => w.callSink)) v.callSink) := by
  show css.find? (fun cs => cs.all (fun e =>
      !(decide (some e.Function ≠ v.callSink) &&
        (vg.map (fun w => w.callSink)).any (fun s => decide (s = some e.Function))))) =
    css.find? (specUniqueOk (vg.map (fun w => w.callSink)) v.callSink)
  congr 1
  funext cs
  unfold specUniqueOk
  congr 1
  funext e
  simp [ne_eq, decide_not, Bool.not_and, Bool.not_not]

lemma filterCallStacks_eq_spec (m : List (Vuln × List CallStack)) :
    filterCallStacks m = m.map (fun p => (p.1, specSelect m p)) := by
  unfold filterCallStacks
  refine List.map_congr_left ?_
  intro p _
  simp only [specSelect, sameGroup]
  cases hsink : p.1.callSink with
  | none => rfl
  | some sink =>
    rw [uniqueCallStack_eq_find, hsink]
    cases hfind : p.2.find?
        (specUniqueOk (((m.map Prod.fst).filter (fun w =>
            w.callSink.isSome && decide (vulnKey w = vulnKey p.1))).map
          (fun w => w.callSink)) (some sink)) <;>
      rfl

/-- C3: for every vulnerability of the map, the deduplicator keeps
exactly the first ranked stack in which every frame is either the
vulnerability's own sink or not a same-group member's sink, and keeps
nothing when no candidate qualifies or the sink is nil. -/
theorem filterCallStacks_first_unique (m : List (Vuln × List CallStack)) :
    filterCallStacks m = m.map (fun p => (p.1, specSelect m p)) :=
  filterCallStacks_eq_spec m

lemma filterCallStacks_fst (m : List (Vuln × List CallStack)) :
    (filterCallStacks m).map Prod.fst = m.map Prod.fst := by
  rw [filterCallStacks_eq_spec, List.map_map]
  refine List.map_congr_left ?_
  intro p _
  rfl

lemma sameGroup_filterCallStacks (m : List (Vuln × List CallStack)) (v : Vuln) :
    sameGroup (filterCallStacks m) v = sameGroup m v := by
  unfold sameGroup
  rw [filterCallStacks_fst]

/-- C9: the deduplicator is idempotent — filtering an already-filtered
map changes nothing: the surviving stack (if any) still qualifies and is
re-selected, and empty lists stay empty. -/
theorem filterCallStacks_idempotent (m : List (Vuln × List CallStack)) :
    filterCallStacks (filterCallStacks m) = filterCallStacks m := by
  rw [filterCallStacks_eq_spec (filterCallStacks m)]
  have hgroup : ∀ q, specSelect (filterCallStacks m) q = specSelect m q := by
    intro q
    unfold specSelect
    rw [sameGroup_filterCallStacks]
  simp only [hgroup]
  rw [filterCallStacks_eq_spec m]
  rw [List.map_map]
  refine List.map_congr_left ?_
  intro p _
  simp only [Function.comp_apply]
  unfold specSelect
  dsimp only
  cases hsink : p.1.callSink with
  | none => rfl
  | some sink =>
    cases hfind : p.2.find?
        (specUniqueOk ((sameGroup m p.1).map (fun w => w.callSink)) (some sink)) with
    | none => rfl
    | some cs =>
      have hcs := List.find?_some hfind
      dsimp only
      rw [List.find?_cons_of_pos _ hcs]

/-! ## C5 — the position reconciler only fills absent or invalid positions -/

/-- Preservation of valid positions between an input stack entry and its
reconciled output: a valid function position survives unchanged, and a
valid call-site position survives unchanged. -/
def presEntry (a b : StackEntry) : Prop :=
  (∀ p, a.Function.pos = some p → p.isValid = true → b.Function.pos = some p) ∧
  (∀ c p, a.Call = some c → c.pos = some p → p.isValid = true →
    ∃ c', b.Call = some c' ∧ c'.pos = some p)

lemma updateInitPosition_id_of_valid {a : StackEntry} {p : Position}
    (h : a.Function.pos = some p) (hv : p.isValid = true) :
    updateInitPosition a = a := by
  simp [updateInitPosition, posValidOpt, h, hv]

lemma updateInitPosition_call (a : StackEntry) :
    (updateInitPosition a).Call = a.Call := by
  unfold updateInitPosition
  split <;> rfl

lemma updateInitCallPosition_function (a next : StackEntry) :
    (updateInitCallPosition a next).Function = a.Function := by
  unfold updateInitCallPosition
  split
  · rfl
  · split <;> rfl

lemma updateInitCallPosition_id_of_valid {a next : StackEntry} {c : CallSite}
    {p : Position} (hc : a.Call = some c) (hp : c.pos = some p)
    (hv : p.isValid = true) :
    updateInitCallPosition a next = a := by
  simp [updateInitCallPosition, posValidOpt, hc, hp, hv]

lemma presEntry_step (a next : StackEntry) :
    presEntry a (updateInitCallPosition (updateInitPosition a) next) := by
  constructor
  · intro p hp hv
    rw [updateInitCallPosition_function, updateInitPosition_id_of_valid hp hv]
    exact hp
  · intro c p hc hp hv
    have h1 : (updateInitPosition a).Call = some c := by
      rw [updateInitPosition_call]
      exact hc
    rw [updateInitCallPosition_id_of_valid h1 hp hv]
    exact ⟨c, h1, hp⟩

lemma presEntry_last (a : StackEntry) : presEntry a (updateInitPosition a) := by
  constructor
  · intro p hp hv
    rw [updateInitPosition_id_of_valid hp hv]
    exact hp
  · intro c p hc hp hv
    refine ⟨c, ?_, hp⟩
    rw [updateInitPosition_call]
    exact hc

lemma updateEntries_forall : ∀ s : List StackEntry,
    List.Forall₂ presEntry s (updateEntries s)
  | [] => List.Forall₂.nil
  | [e] => List.Forall₂.cons (presEntry_last e) List.Forall₂.nil
  | e :: next :: rest =>
    List.Forall₂.cons (presEntry_step e next) (updateEntries_forall (next :: rest))

/-- C5 (amended): the position reconciler keeps every vulnerability and
every stack in place, and for every stack entry it never changes a
function position or call-site position that was present AND valid
before reconciliation; it writes only into positions that are absent
(nil) or present-but-invalid (IsValid false). -/
theorem updateInitPositions_preserves_valid (m : List (Vuln × List CallStack)) :
    List.Forall₂ (fun p q => q.1 = p.1 ∧
        List.Forall₂ (fun s t => List.Forall₂ presEntry s t) p.2 q.2)
      m (updateInitPositions m) := by
  unfold updateInitPositions
  rw [List.forall₂_map_right_iff, List.forall₂_same]
  intro p _
  refine ⟨rfl, ?_⟩
  rw [List.forall₂_map_right_iff, List.forall₂_same]
  intro s _
  exact updateEntries_forall s

/-! ## C4 — order-theoretic facts about the §4.2 primitives -/

/-- The data `posLess` compares: line, column, filename. -/
def posKey (p : Position) : Int × Int × String := (p.line, p.column, p.filename)

lemma strLtb_asymm : ∀ a b, strLtb a b = true → strLtb b a = false
  | [], [] => by simp [strLtb]
  | [], _ :: _ => by simp [strLtb]
  | _ :: _, [] => by simp [strLtb]
  | c :: cs, d :: ds => by
    intro h
    simp only [strLtb] at h ⊢
    by_cases h1 : c < d
    · rw [if_neg (asymm h1), if_pos h1]
    · rw [if_neg h1] at h
      by_cases h2 : d < c
      · rw [if_pos h2] at h
        cases h
      · rw [if_neg h2] at h
        rw [if_neg h2, if_neg h1]
        exact strLtb_asymm cs ds h

lemma strLtb_total : ∀ a b, a ≠ b → strLtb a b = true ∨ strLtb b a = true
  | [], [] => fun h => absurd rfl h
  | [], _ :: _ => fun _ => Or.inl rfl
  | _ :: _, [] => fun _ => Or.inr rfl
  | c :: cs, d :: ds => fun h => by
    by_cases h1 : c < d
    · left
      simp [strLtb, h1]
    · by_cases h2 : d < c
      · right
        simp [strLtb, h2]
      · have hcd : c = d := le_antisymm (not_lt.1 h2) (not_lt.1 h1)
        subst hcd
        have hne : cs ≠ ds := fun hh => h (by rw [hh])
        rcases strLtb_total cs ds hne with h3 | h3
        · left
          simp [strLtb, lt_irrefl, h3]
        · right
          simp [strLtb, lt_irrefl, h3]

lemma strLtb_trans : ∀ a b c, strLtb a b = true → strLtb b c = true →
    strLtb a c = true
  | a, [], _ => by
    intro h _
    cases a <;> simp [strLtb] at h
  | [], _ :: _, c => by
    intro _ h2
    cases c with
    | nil => simp [strLtb] at h2
    | cons z zs => rfl
  | x :: xs, y :: ys, [] => by
    intro _ h2
    simp [strLtb] at h2
  | x :: xs, y :: ys, z :: zs => by
    intro h1 h2
    simp only [strLtb] at h1 h2 ⊢
    by_cases hxy : x < y
    · by_cases hyz : y < z
      · rw [if_pos (lt_trans hxy hyz)]
      · rw [if_neg hyz] at h2
        by_cases hzy : z < y
        · rw [if_pos hzy] at h2
          cases h2
        · have hyz' : y = z := le_antisymm (not_lt.1 hzy) (not_lt.1 hyz)
          rw [if_pos (hyz' ▸ hxy)]
    · rw [if_neg hxy] at h1
      by_cases hyx : y < x
      · rw [if_pos hyx] at h1
        cases h1
      · rw [if_neg hyx] at h1
        have hxy' : x = y := le_antisymm (not_lt.1 hyx) (not_lt.1 hxy)
        rw [← hxy'] at h2
        by_cases hxz : x < z
        · rw [if_pos hxz]
        · rw [if_neg hxz] at h2 ⊢
          by_cases hzx : z < x
          · rw [if_pos hzx] at h2
            cases h2
          · rw [if_neg hzx] at h2 ⊢
            exact strLtb_trans xs ys zs h1 h2

lemma strLt_asymm (a b : String) (h : strLt a b = true) : strLt b a = false :=
  strLtb_asymm _ _ h

lemma strLt_total (a b : String) (h : a ≠ b) :
    strLt a b = true ∨ strLt b a = true := by
  refine strLtb_total _ _ ?_
  intro hd
  apply h
  cases a
  cases b
  cases hd
  rfl

lemma strLt_trans (a b c : String) (h1 : strLt a b = true)
    (h2 : strLt b c = true) : strLt a c = true :=
  strLtb_trans _ _ _ h1 h2

lemma posLess_iff (p q : Position) :
    posLess p q = true ↔
      p.line < q.line ∨ (p.line = q.line ∧ (p.column < q.column ∨
        (p.column = q.column ∧ strLt p.filename q.filename = true))) := by
  unfold posLess
  split_ifs with h1 h2 h3 h4
  · exact ⟨fun _ => Or.inl h1, fun _ => rfl⟩
  · refine ⟨fun h => absurd h (by simp), fun h => ?_⟩
    exfalso
    rcases h with h | ⟨hl, _⟩ <;> omega
  · exact ⟨fun _ => Or.inr ⟨by omega, Or.inl h3⟩, fun _ => rfl⟩
  · refine ⟨fun h => absurd h (by simp), fun h => ?_⟩
    exfalso
    rcases h with h | ⟨hl, h⟩
    · omega
    · rcases h with h | ⟨hc, _⟩ <;> omega
  · constructor
    · intro h
      exact Or.inr ⟨by omega, Or.inr ⟨by omega, h⟩⟩
    · intro h
      rcases h with h | ⟨hl, h⟩
      · omega
      · rcases h with h | ⟨hc, h⟩
        · omega
        · exact h

lemma posLess_asymm {p q : Position} (h : posLess p q = true) :
    posLess q p = false := by
  rw [posLess_iff] at h
  rw [Bool.eq_false_iff]
  intro h'
  rw [posLess_iff] at h'
  rcases h with h | ⟨hl, h⟩ <;> rcases h' with h' | ⟨hl', h'⟩
  · omega
  · omega
  · omega
  · rcases h with h | ⟨hc, h⟩ <;> rcases h' with h' | ⟨hc', h'⟩
    · omega
    · omega
    · omega
    · have := strLt_asymm _ _ h
      rw [h'] at this
      cases this

lemma posLess_total {p q : Position} (h : posKey p ≠ posKey q) :
    posLess p q = true ∨ posLess q p = true := by
  rw [posLess_iff, posLess_iff]
  unfold posKey at h
  by_cases hl : p.line = q.line
  · by_cases hc : p.column = q.column
    · have hf : p.filename ≠ q.filename := by
        intro hf
        exact h (by rw [hl, hc, hf])
      rcases strLt_total _ _ hf with hs | hs
      · exact Or.inl (Or.inr ⟨hl, Or.inr ⟨hc, hs⟩⟩)
      · exact Or.inr (Or.inr ⟨hl.symm, Or.inr ⟨hc.symm, hs⟩⟩)
    · have h' : p.column < q.column ∨ q.column < p.column := by omega
      rcases h' with h' | h'
      · exact Or.inl (Or.inr ⟨hl, Or.inl h'⟩)
      · exact Or.inr (Or.inr ⟨hl.symm, Or.inl h'⟩)
  · have h' : p.line < q.line ∨ q.line < p.line := by omega
    rcases h' with h' | h'
    · exact Or.inl (Or.inl h')
    · exact Or.inr (Or.inl h')

lemma posLess_trans {p q r : Position} (h1 : posLess p q = true)
    (h2 : posLess q r = true) : posLess p r = true := by
  rw [posLess_iff] at h1 h2 ⊢
  rcases h1 with h1 | ⟨l1, h1⟩ <;> rcases h2 with h2 | ⟨l2, h2⟩
  · left; omega
  · left; omega
  · left; omega
  · refine Or.inr ⟨by omega, ?_⟩
    rcases h1 with h1 | ⟨c1, h1⟩ <;> rcases h2 with h2 | ⟨c2, h2⟩
    · left; omega
    · left; omega
    · left; omega
    · exact Or.inr ⟨by omega, strLt_trans _ _ _ h1 h2⟩

lemma csLess_pos {s t : CallSite} {p q : Position} (hs : s.pos = some p)
    (ht : t.pos = some q) (hk : posKey p ≠ posKey q) :
    csLess s (some t) = posLess p q := by
  simp only [csLess, hs, ht]
  rcases posLess_total hk with h | h
  · rw [if_pos h, h]
  · have hf := posLess_asymm h
    rw [if_neg (by simp [hf]), if_pos h]
    exact hf.symm

lemma funcLess_pos {f g : FuncNode} {p q : Position} (hf : f.pos = some p)
    (hg : g.pos = some q) (hk : posKey p ≠ posKey q) :
    funcLess f g = posLess p q := by
  simp only [funcLess, hf, hg]
  rcases posLess_total hk with h | h
  · rw [if_pos h, h]
  · have hff := posLess_asymm h
    rw [if_neg (by simp [hff]), if_pos h]
    exact hff.symm

/-! ## C4 — association-list lemmas for `minCs` -/

lemma lookupCS_cons (q : FuncNode × CallSite) (rest : List (FuncNode × CallSite))
    (g : FuncNode) :
    lookupCS (q :: rest) g = if q.1 = g then some q.2 else lookupCS rest g := by
  unfold lookupCS
  by_cases h : q.1 = g
  · rw [if_pos h, List.find?_cons_of_pos _ (by simp [h])]
  · rw [if_neg h, List.find?_cons_of_neg _ (by simp [h])]

lemma lookupCS_setCS_self {f : FuncNode} {cs : CallSite} :
    ∀ acc, lookupCS (setCS acc f cs) f = some cs
  | [] => by
    show lookupCS [(f, cs)] f = some cs
    rw [lookupCS_cons, if_pos rfl]
  | q :: rest => by
    unfold setCS
    by_cases hq : q.1 = f
    · rw [if_pos hq, lookupCS_cons, if_pos rfl]
    · rw [if_neg hq, lookupCS_cons, if_neg hq]
      exact lookupCS_setCS_self rest

lemma lookupCS_setCS_ne {f g : FuncNode} {cs : CallSite} (h : g ≠ f) :
    ∀ acc, lookupCS (setCS acc f cs) g = lookupCS acc g
  | [] => by
    show lookupCS [(f, cs)] g = lookupCS [] g
    rw [lookupCS_cons, if_neg (fun hfg => h hfg.symm)]
  | q :: rest => by
    unfold setCS
    by_cases hq : q.1 = f
    · rw [if_pos hq, lookupCS_cons, lookupCS_cons,
        if_neg (fun hfg => h hfg.symm), if_neg (by rw [hq]; exact fun hfg => h hfg.symm)]
    · rw [if_neg hq, lookupCS_cons, lookupCS_cons]
      by_cases hqg : q.1 = g
      · rw [if_pos hqg, if_pos hqg]
      · rw [if_neg hqg, if_neg hqg]
        exact lookupCS_setCS_ne h rest

lemma setCS_keys (f : FuncNode) (cs : CallSite) :
    ∀ acc : List (FuncNode × CallSite),
      (setCS acc f cs).map Prod.fst =
        if f ∈ acc.map Prod.fst then acc.map Prod.fst
        else acc.map Prod.fst ++ [f]
  | [] => by simp [setCS]
  | q :: rest => by
    unfold setCS
    by_cases hq : q.1 = f
    · rw [if_pos hq]
      simp [hq]
    · rw [if_neg hq]
      simp only [List.map_cons]
      rw [setCS_keys f cs rest]
      by_cases hmem : f ∈ rest.map Prod.fst
      · rw [if_pos hmem, if_pos (List.mem_cons_of_mem _ hmem)]
      · rw [if_neg hmem, if_neg ?_]
        · simp
        · intro hc
          rcases List.mem_cons.1 hc with hc | hc
          · exact hq hc.symm
          · exact hmem hc

lemma lookupCS_eq_none_iff (acc : List (FuncNode × CallSite)) (g : FuncNode) :
    lookupCS acc g = none ↔ g ∉ acc.map Prod.fst := by
  induction acc with
  | nil => simp [lookupCS]
  | cons q rest ih =>
    rw [lookupCS_cons]
    by_cases hq : q.1 = g
    · rw [if_pos hq]
      simp [hq]
    · rw [if_neg hq, ih]
      simp only [List.map_cons, List.mem_cons, not_or]
      constructor
      · intro hn
        exact ⟨fun hg => hq hg.symm, hn⟩
      · intro hn
        exact hn.2

lemma lookupCS_isSome_of_mem {acc : List (FuncNode × CallSite)} {g : FuncNode}
    (h : g ∈ acc.map Prod.fst) : ∃ cs, lookupCS acc g = some cs := by
  cases hl : lookupCS acc g with
  | none => exact absurd h ((lookupCS_eq_none_iff acc g).1 hl)
  | some cs => exact ⟨cs, rfl⟩

lemma strLtb_irrefl : ∀ a, strLtb a a = false
  | [] => rfl
  | c :: cs => by
    simp only [strLtb]
    rw [if_neg (lt_irrefl c), if_neg (lt_irrefl c)]
    exact strLtb_irrefl cs

lemma strLt_irrefl (a : String) : strLt a a = false := strLtb_irrefl _

lemma posLess_irrefl (p : Position) : posLess p p = false := by
  rw [Bool.eq_false_iff]
  intro h
  rw [posLess_iff] at h
  rcases h with h | ⟨_, h⟩
  · omega
  · rcases h with h | ⟨_, h⟩
    · omega
    · rw [strLt_irrefl] at h
      cases h

lemma csLess_self_of_pos {s : CallSite} {p : Position} (h : s.pos = some p) :
    csLess s (some s) = false := by
  simp only [csLess, h]
  rw [if_neg (by simp [posLess_irrefl]), if_neg (by simp [posLess_irrefl])]
  exact strLt_irrefl _

lemma funcLess_self_of_pos {f : FuncNode} {p : Position} (h : f.pos = some p) :
    funcLess f f = false := by
  simp only [funcLess, h]
  rw [if_neg (by simp [posLess_irrefl]), if_neg (by simp [posLess_irrefl])]
  exact strLt_irrefl _

lemma lookupCS_of_mem : ∀ {acc : List (FuncNode × CallSite)},
    (acc.map Prod.fst).Nodup → ∀ {pr}, pr ∈ acc → lookupCS acc pr.1 = some pr.2
  | [], _, _, h => absurd h (List.not_mem_nil _)
  | q :: rest, hnodup, pr, h => by
    have hn := List.nodup_cons.1 (show (q.1 :: rest.map Prod.fst).Nodup from hnodup)
    rw [lookupCS_cons]
    rcases List.mem_cons.1 h with rfl | h'
    · rw [if_pos rfl]
    · have hq : q.1 ≠ pr.1 := fun he => hn.1 (he ▸ List.mem_map_of_mem Prod.fst h')
      rw [if_neg hq]
      exact lookupCS_of_mem hn.2 h'

lemma mem_setCS_iff : ∀ {acc : List (FuncNode × CallSite)} {f : FuncNode}
    {cs : CallSite} {pr : FuncNode × CallSite},
    (acc.map Prod.fst).Nodup →
    (pr ∈ setCS acc f cs ↔ pr = (f, cs) ∨ (pr ∈ acc ∧ pr.1 ≠ f))
  | [], f, cs, pr, _ => by simp [setCS]
  | q :: rest, f, cs, pr, hnodup => by
    have hn := List.nodup_cons.1 (show (q.1 :: rest.map Prod.fst).Nodup from hnodup)
    unfold setCS
    by_cases hq : q.1 = f
    · rw [if_pos hq]
      constructor
      · intro h
        rcases List.mem_cons.1 h with rfl | h'
        · exact Or.inl rfl
        · refine Or.inr ⟨List.mem_cons_of_mem _ h', ?_⟩
          intro he
          exact hn.1 (by rw [hq, ← he]; exact List.mem_map_of_mem Prod.fst h')
      · intro h
        rcases h with rfl | ⟨hmem, hne⟩
        · exact List.mem_cons_self _ _
        · rcases List.mem_cons.1 hmem with rfl | h'
          · exact absurd hq hne
          · exact List.mem_cons_of_mem _ h'
    · rw [if_neg hq]
      constructor
      · intro h
        rcases List.mem_cons.1 h with rfl | h'
        · exact Or.inr ⟨List.mem_cons_self _ _, hq⟩
        · rcases (mem_setCS_iff hn.2).1 h' with h'' | ⟨hmem, hne⟩
          · exact Or.inl h''
          · exact Or.inr ⟨List.mem_cons_of_mem _ hmem, hne⟩
      · intro h
        rcases h with rfl | ⟨hmem, hne⟩
        · exact List.mem_cons_of_mem _ ((mem_setCS_iff hn.2).2 (Or.inl rfl))
        · rcases List.mem_cons.1 hmem with rfl | h'
          · exact List.mem_cons_self _ _
          · exact List.mem_cons_of_mem _ ((mem_setCS_iff hn.2).2 (Or.inr ⟨h', hne⟩))

lemma setCS_keys_nodup {acc : List (FuncNode × CallSite)} {f : FuncNode}
    {cs : CallSite} (h : (acc.map Prod.fst).Nodup) :
    ((setCS acc f cs).map Prod.fst).Nodup := by
  rw [setCS_keys]
  split
  · exact h
  · rename_i hmem
    rw [List.nodup_append]
    refine ⟨h, List.nodup_singleton _, ?_⟩
    intro x hx hb
    simp only [List.mem_singleton] at hb
    subst hb
    exact hmem hx

/-- The loop invariant of the first loop of `callsites`, under
present-and-pairwise-distinct positions: the accumulator has
duplicate-free keys; it binds each caller to one of its own processed,
unvisited sites; it covers every processed unvisited caller; and each
binding is strictly `posLess`-below every other processed site of the
same caller. -/
def MinAccInv (visited : List FuncNode) (processed : List CallSite)
    (acc : List (FuncNode × CallSite)) : Prop :=
  (acc.map Prod.fst).Nodup ∧
  (∀ pr ∈ acc, pr.2 ∈ processed ∧ pr.2.parent = pr.1 ∧ pr.1 ∉ visited) ∧
  (∀ s ∈ processed, s.parent ∉ visited → ∃ cs, lookupCS acc s.parent = some cs) ∧
  (∀ pr ∈ acc, ∀ s ∈ processed, s.parent = pr.1 → s ≠ pr.2 →
    ∃ pc ps, pr.2.pos = some pc ∧ s.pos = some ps ∧ posLess pc ps = true)

lemma minAccInv_step
    (sites : List CallSite) (visited : List FuncNode)
    (Hpos : ∀ s ∈ sites, ∃ p, s.pos = some p)
    (Hkey : ∀ s ∈ sites, ∀ t ∈ sites, s ≠ t → ∀ ps pt, s.pos = some ps →
      t.pos = some pt → posKey ps ≠ posKey pt)
    {processed : List CallSite} {acc : List (FuncNode × CallSite)}
    (hsub : ∀ s ∈ processed, s ∈ sites) {cs : CallSite} (hcs : cs ∈ sites)
    (hinv : MinAccInv visited processed acc) :
    MinAccInv visited (processed ++ [cs]) (minCsStep visited acc cs) := by
  obtain ⟨hnodup, hmem, hcomp, hmin⟩ := hinv
  unfold minCsStep
  by_cases hvis : cs.parent ∈ visited
  · rw [if_pos hvis]
    refine ⟨hnodup, ?_, ?_, ?_⟩
    · intro pr hpr
      obtain ⟨h1, h2, h3⟩ := hmem pr hpr
      exact ⟨List.mem_append_left _ h1, h2, h3⟩
    · intro s hs hsv
      rcases List.mem_append.1 hs with hs | hs
      · exact hcomp s hs hsv
      · simp only [List.mem_singleton] at hs
        subst hs
        exact absurd hvis hsv
    · intro pr hpr s hs hsp hsne
      rcases List.mem_append.1 hs with hs | hs
      · exact hmin pr hpr s hs hsp hsne
      · simp only [List.mem_singleton] at hs
        subst hs
        obtain ⟨_, _, h3⟩ := hmem pr hpr
        exact absurd (hsp ▸ hvis) h3
  · rw [if_neg hvis]
    by_cases hless : csLess cs (lookupCS acc cs.parent) = true
    · rw [if_pos hless]
      refine ⟨setCS_keys_nodup hnodup, ?_, ?_, ?_⟩
      · intro pr hpr
        rcases (mem_setCS_iff hnodup).1 hpr with rfl | ⟨hpr', _⟩
        · exact ⟨List.mem_append_right _ (List.mem_singleton.2 rfl), rfl, hvis⟩
        · obtain ⟨h1, h2, h3⟩ := hmem pr hpr'
          exact ⟨List.mem_append_left _ h1, h2, h3⟩
      · intro s hs hsv
        by_cases hsp : s.parent = cs.parent
        · rw [hsp]
          exact ⟨cs, lookupCS_setCS_self acc⟩
        · rw [lookupCS_setCS_ne hsp acc]
          rcases List.mem_append.1 hs with hs | hs
          · exact hcomp s hs hsv
          · simp only [List.mem_singleton] at hs
            subst hs
            exact absurd rfl hsp
      · intro pr hpr s hs hsp hsne
        rcases (mem_setCS_iff hnodup).1 hpr with rfl | ⟨hpr', hprne⟩
        · have hsp' : s.parent = cs.parent := hsp
          obtain ⟨pc, hpc⟩ := Hpos cs hcs
          rcases List.mem_append.1 hs with hs | hs
          · have hsv : s.parent ∉ visited := by
              rw [hsp']
              exact hvis
            obtain ⟨m, hm⟩ := hcomp s hs hsv
            rw [hsp'] at hm
            rw [hm] at hless
            have hmmem := lookupCS_mem hm
            obtain ⟨hm1, hm2, _⟩ := hmem _ hmmem
            obtain ⟨pm, hpm⟩ := Hpos m (hsub m hm1)
            have hcsm : cs ≠ m := by
              intro he
              rw [← he, csLess_self_of_pos hpc] at hless
              cases hless
            have hkey1 : posKey pc ≠ posKey pm :=
              Hkey cs hcs m (hsub m hm1) hcsm pc pm hpc hpm
            have hlt1 : posLess pc pm = true := by
              rw [csLess_pos hpc hpm hkey1] at hless
              exact hless
            by_cases hsm : s = m
            · subst hsm
              exact ⟨pc, pm, hpc, hpm, hlt1⟩
            · obtain ⟨pm', ps, hpm', hps, hlt2⟩ :=
                hmin _ hmmem s hs (by rw [hsp']) hsm
              rw [hpm] at hpm'
              injection hpm' with he'
              subst he'
              exact ⟨pc, ps, hpc, hps, posLess_trans hlt1 hlt2⟩
          · simp only [List.mem_singleton] at hs
            subst hs
            exact absurd rfl hsne
        · rcases List.mem_append.1 hs with hs | hs
          · exact hmin pr hpr' s hs hsp hsne
          · simp only [List.mem_singleton] at hs
            subst hs
            exact absurd hsp.symm hprne
    · rw [if_neg hless]
      have hmex : ∃ m, lookupCS acc cs.parent = some m := by
        cases hl : lookupCS acc cs.parent with
        | none =>
          rw [hl] at hless
          exact absurd rfl hless
        | some m => exact ⟨m, rfl⟩
      obtain ⟨m, hm⟩ := hmex
      refine ⟨hnodup, ?_, ?_, ?_⟩
      · intro pr hpr
        obtain ⟨h1, h2, h3⟩ := hmem pr hpr
        exact ⟨List.mem_append_left _ h1, h2, h3⟩
      · intro s hs hsv
        rcases List.mem_append.1 hs with hs | hs
        · exact hcomp s hs hsv
        · simp only [List.mem_singleton] at hs
          subst hs
          exact ⟨m, hm⟩
      · intro pr hpr s hs hsp hsne
        rcases List.mem_append.1 hs with hs | hs
        · exact hmin pr hpr s hs hsp hsne
        · simp only [List.mem_singleton] at hs
          subst hs
          have hlk : lookupCS acc pr.1 = some pr.2 := lookupCS_of_mem hnodup hpr
          rw [← hsp, hm] at hlk
          injection hlk with he
          obtain ⟨h1, _, _⟩ := hmem pr hpr
          obtain ⟨pm, hpm⟩ := Hpos pr.2 (hsub _ h1)
          obtain ⟨pc, hpc⟩ := Hpos s hcs
          have hne : s ≠ pr.2 := hsne
          have hkey1 : posKey pc ≠ posKey pm :=
            Hkey s hcs pr.2 (hsub _ h1) hne pc pm hpc hpm
          rw [hm, he, csLess_pos hpc hpm hkey1] at hless
          rcases posLess_total hkey1 with h' | h'
          · exact absurd h' hless
          · exact ⟨pm, pc, hpm, hpc, h'⟩

lemma minCsFold_inv (sites : List CallSite) (visited : List FuncNode)
    (Hpos : ∀ s ∈ sites, ∃ p, s.pos = some p)
    (Hkey : ∀ s ∈ sites, ∀ t ∈ sites, s ≠ t → ∀ ps pt, s.pos = some ps →
      t.pos = some pt → posKey ps ≠ posKey pt) :
    ∀ (l processed : List CallSite) (acc : List (FuncNode × CallSite)),
      (∀ s ∈ l, s ∈ sites) → (∀ s ∈ processed, s ∈ sites) →
      MinAccInv visited processed acc →
      MinAccInv visited (processed ++ l) (l.foldl (minCsStep visited) acc) := by
  intro l
  induction l with
  | nil =>
    intro processed acc _ _ hinv
    simpa using hinv
  | cons s rest ih =>
    intro processed acc hl hp hinv
    rw [List.foldl_cons]
    have h1 := minAccInv_step sites visited Hpos Hkey hp
      (hl s (List.mem_cons_self _ _)) hinv
    have hp' : ∀ t ∈ processed ++ [s], t ∈ sites := by
      intro t ht
      rcases List.mem_append.1 ht with ht | ht
      · exact hp t ht
      · simp only [List.mem_singleton] at ht
        subst ht
        exact hl t (List.mem_cons_self _ _)
    have h2 := ih (processed ++ [s]) (minCsStep visited acc s)
      (fun t ht => hl t (List.mem_cons_of_mem _ ht)) hp' h1
    rw [show processed ++ s :: rest = (processed ++ [s]) ++ rest by simp]
    exact h2

lemma minCsFold_full (sites : List CallSite) (visited : List FuncNode)
    (Hpos : ∀ s ∈ sites, ∃ p, s.pos = some p)
    (Hkey : ∀ s ∈ sites, ∀ t ∈ sites, s ≠ t → ∀ ps pt, s.pos = some ps →
      t.pos = some pt → posKey ps ≠ posKey pt) :
    MinAccInv visited sites (minCsFold sites visited) := by
  have h := minCsFold_inv sites visited Hpos Hkey sites [] []
    (fun s hs => hs) (fun s hs => absurd hs (List.not_mem_nil _))
    ⟨List.nodup_nil, fun pr hpr => absurd hpr (List.not_mem_nil _),
      fun s hs => absurd hs (List.not_mem_nil _),
      fun pr hpr => absurd hpr (List.not_mem_nil _)⟩
  simpa [minCsFold] using h

/-! ## C4 — the stable insertion sort -/

lemma mem_insertBy (less : α → α → Bool) (a : α) :
    ∀ (l : List α) (x : α), x ∈ insertBy less a l ↔ x = a ∨ x ∈ l
  | [], x => by simp [insertBy]
  | b :: t, x => by
    unfold insertBy
    split
    · rw [List.mem_cons, mem_insertBy less a t x, List.mem_cons]
      tauto
    · simp only [List.mem_cons]

lemma insertBy_perm (less : α → α → Bool) (a : α) :
    ∀ l : List α, List.Perm (insertBy less a l) (a :: l)
  | [] => List.Perm.refl _
  | b :: t => by
    unfold insertBy
    split
    · exact ((insertBy_perm less a t).cons b).trans (List.Perm.swap a b t)
    · exact List.Perm.refl _

lemma stableSortBy_perm (less : α → α → Bool) :
    ∀ l : List α, List.Perm (stableSortBy less l) l
  | [] => List.Perm.refl _
  | a :: t => (insertBy_perm less a _).trans ((stableSortBy_perm less t).cons a)

lemma insertBy_pairwise (less : α → α → Bool) (S : List α)
    (Htot : ∀ x ∈ S, ∀ y ∈ S, x ≠ y → less x y = true ∨ less y x = true)
    (Htrans : ∀ x ∈ S, ∀ y ∈ S, ∀ z ∈ S, less x y = true → less y z = true →
      less x z = true) :
    ∀ (l : List α) (a : α), a ∈ S → (∀ x ∈ l, x ∈ S) → a ∉ l →
      l.Pairwise (fun x y => less x y = true) →
      (insertBy less a l).Pairwise (fun x y => less x y = true)
  | [], a, _, _, _, _ => by simp [insertBy]
  | b :: t, a, haS, hlS, hanl, hp => by
    unfold insertBy
    have hbS := hlS b (List.mem_cons_self _ _)
    have htS : ∀ x ∈ t, x ∈ S := fun x hx => hlS x (List.mem_cons_of_mem _ hx)
    have hant : a ∉ t := fun h => hanl (List.mem_cons_of_mem _ h)
    have hab : a ≠ b := fun h => hanl (h ▸ List.mem_cons_self _ _)
    rw [List.pairwise_cons] at hp
    split
    · rename_i hba
      rw [List.pairwise_cons]
      constructor
      · intro y hy
        rcases (mem_insertBy less a t y).1 hy with rfl | hy
        · exact hba
        · exact hp.1 y hy
      · exact insertBy_pairwise less S Htot Htrans t a haS htS hant hp.2
    · rename_i hba
      rw [List.pairwise_cons]
      refine ⟨?_, List.pairwise_cons.2 hp⟩
      intro y hy
      rcases List.mem_cons.1 hy with rfl | hy
      · rcases Htot a haS y hbS hab with h | h
        · exact h
        · exact absurd h hba
      · rcases Htot a haS y (htS y hy) (fun h => hant (h ▸ hy)) with h | h
        · exact h
        · exact absurd (Htrans b hbS y (htS y hy) a haS (hp.1 y hy) h) hba

lemma stableSortBy_mem (less : α → α → Bool) :
    ∀ (l : List α) (x : α), x ∈ stableSortBy less l ↔ x ∈ l
  | [], x => Iff.rfl
  | a :: t, x => by
    unfold stableSortBy
    rw [mem_insertBy, stableSortBy_mem less t x, List.mem_cons]

lemma stableSortBy_pairwise (less : α → α → Bool) (S : List α)
    (Htot : ∀ x ∈ S, ∀ y ∈ S, x ≠ y → less x y = true ∨ less y x = true)
    (Htrans : ∀ x ∈ S, ∀ y ∈ S, ∀ z ∈ S, less x y = true → less y z = true →
      less x z = true) :
    ∀ l : List α, (∀ x ∈ l, x ∈ S) → l.Nodup →
      (stableSortBy less l).Pairwise (fun x y => less x y = true)
  | [], _, _ => by simp [stableSortBy]
  | a :: t, hlS, hnd => by
    unfold stableSortBy
    have hnd' := List.nodup_cons.1 hnd
    refine insertBy_pairwise less S Htot Htrans _ a
      (hlS a (List.mem_cons_self _ _)) ?_ ?_ ?_
    · intro x hx
      exact hlS x (List.mem_cons_of_mem _ ((stableSortBy_mem less t x).1 hx))
    · intro h
      exact hnd'.1 ((stableSortBy_mem less t a).1 h)
    · exact stableSortBy_pairwise less S Htot Htrans t
        (fun x hx => hlS x (List.mem_cons_of_mem _ hx)) hnd'.2

lemma minCsStep_keys_nodup {visited : List FuncNode}
    {acc : List (FuncNode × CallSite)} {cs : CallSite}
    (h : (acc.map Prod.fst).Nodup) :
    ((minCsStep visited acc cs).map Prod.fst).Nodup := by
  unfold minCsStep
  split_ifs
  · exact h
  · exact setCS_keys_nodup h
  · exact h

lemma minCsFold_keys_nodup (sites : List CallSite) (visited : List FuncNode) :
    ((minCsFold sites visited).map Prod.fst).Nodup := by
  suffices H : ∀ (l : List CallSite) (acc : List (FuncNode × CallSite)),
      (acc.map Prod.fst).Nodup →
      ((l.foldl (minCsStep visited) acc).map Prod.fst).Nodup from
    H sites [] List.nodup_nil
  intro l
  induction l with
  | nil => intro acc h; exact h
  | cons s rest ih =>
    intro acc h
    rw [List.foldl_cons]
    exact ih _ (minCsStep_keys_nodup h)

lemma minCsStep_preserves_some {visited : List FuncNode}
    {acc : List (FuncNode × CallSite)} {cs : CallSite} {f : FuncNode}
    (h : ∃ m, lookupCS acc f = some m) :
    ∃ m, lookupCS (minCsStep visited acc cs) f = some m := by
  unfold minCsStep
  split_ifs
  · exact h
  · by_cases hf : f = cs.parent
    · subst hf
      exact ⟨cs, lookupCS_setCS_self acc⟩
    · rw [lookupCS_setCS_ne hf acc]
      exact h
  · exact h

lemma foldl_minCs_preserves_some (visited : List FuncNode) :
    ∀ (l : List CallSite) (acc : List (FuncNode × CallSite)) (f : FuncNode),
      (∃ m, lookupCS acc f = some m) →
      ∃ m, lookupCS (l.foldl (minCsStep visited) acc) f = some m
  | [], _, _ => fun h => h
  | s :: rest, acc, f => fun h => by
    rw [List.foldl_cons]
    exact foldl_minCs_preserves_some visited rest _ f (minCsStep_preserves_some h)

lemma minCsFold_complete (sites : List CallSite) (visited : List FuncNode) :
    ∀ s ∈ sites, s.parent ∉ visited →
      ∃ m, lookupCS (minCsFold sites visited) s.parent = some m := by
  suffices H : ∀ (l : List CallSite) (acc : List (FuncNode × CallSite)),
      ∀ s ∈ l, s.parent ∉ visited →
        ∃ m, lookupCS (l.foldl (minCsStep visited) acc) s.parent = some m from
    fun s hs hv => H sites [] s hs hv
  intro l
  induction l with
  | nil =>
    intro acc s hs
    exact absurd hs (List.not_mem_nil _)
  | cons t rest ih =>
    intro acc s hs hv
    rw [List.foldl_cons]
    rcases List.mem_cons.1 hs with rfl | hs
    · refine foldl_minCs_preserves_some visited rest _ _ ?_
      unfold minCsStep
      rw [if_neg hv]
      split_ifs with hless
      · exact ⟨s, lookupCS_setCS_self acc⟩
      · cases hl : lookupCS acc s.parent with
        | none =>
          rw [hl] at hless
          exact absurd rfl hless
        | some m => exact ⟨m, rfl⟩
    · exact ih _ s hs hv

/-- C4 (amended): `callsites` returns at most one call site per caller
(the parents of the returned sites are pairwise distinct), every
returned site is one of the input sites and belongs to a caller not in
the visited set, and every unvisited caller with an input site is
represented. When all input sites carry present positions with pairwise
distinct (line, column, filename) keys, and likewise the callers'
positions, the site returned for each caller is the strict minimum of
that caller's sites under `csLess`, and the returned list is strictly
sorted by `funcLess` on the callers. (Without those hypotheses `csLess`
and `funcLess` are not antisymmetric — two sites with absent positions
each compare below the other — and the fold may keep a later,
non-minimal site; see the counterexample.) -/
theorem callsites_spec :
    (∀ (sites : List CallSite) (visited : List FuncNode),
      (∀ cs ∈ callsites sites visited, cs ∈ sites ∧ cs.parent ∉ visited) ∧
      ((callsites sites visited).map (fun cs => cs.parent)).Nodup ∧
      (∀ s ∈ sites, s.parent ∉ visited →
        ∃ cs ∈ callsites sites visited, cs.parent = s.parent)) ∧
    (∀ (sites : List CallSite) (visited : List FuncNode),
      (∀ s ∈ sites, ∃ p, s.pos = some p) →
      (∀ s ∈ sites, ∀ t ∈ sites, s ≠ t → ∀ ps pt, s.pos = some ps →
        t.pos = some pt → posKey ps ≠ posKey pt) →
      (∀ s ∈ sites, ∃ p, s.parent.pos = some p) →
      (∀ s ∈ sites, ∀ t ∈ sites, s.parent ≠ t.parent → ∀ ps pt,
        s.parent.pos = some ps → t.parent.pos = some pt →
        posKey ps ≠ posKey pt) →
      (∀ cs ∈ callsites sites visited, ∀ s ∈ sites, s.parent = cs.parent →
        s ≠ cs → csLess cs (some s) = true ∧ csLess s (some cs) = false) ∧
      (callsites sites visited).Pairwise
        (fun a b => funcLess a.parent b.parent = true)) := by
  constructor
  · intro sites visited
    have hout : callsites sites visited =
        (stableSortBy funcLess
            ((minCsFold sites visited).map (fun p => p.1))).filterMap
          (fun f => lookupCS (minCsFold sites visited) f) := rfl
    have hfsnodup : (((minCsFold sites visited).map (fun p => p.1)) :
        List FuncNode).Nodup := minCsFold_keys_nodup sites visited
    have hsortednodup :
        (stableSortBy funcLess
          ((minCsFold sites visited).map (fun p => p.1))).Nodup :=
      ((stableSortBy_perm funcLess _).symm).nodup hfsnodup
    refine ⟨fun cs hcs => callsites_sub hcs, ?_, ?_⟩
    · rw [hout]
      show List.Pairwise (fun a b : FuncNode => a ≠ b) _
      rw [List.pairwise_map, List.pairwise_filterMap]
      refine List.Pairwise.imp ?_ hsortednodup
      intro f g hfg x hx y hy
      rw [Option.mem_def] at hx hy
      have h2x := (mem_minCsFold (lookupCS_mem hx)).2.1
      have h2y := (mem_minCsFold (lookupCS_mem hy)).2.1
      rw [h2x, h2y]
      exact hfg
    · intro s hs hv
      obtain ⟨m, hm⟩ := minCsFold_complete sites visited s hs hv
      have h2 := mem_minCsFold (lookupCS_mem hm)
      refine ⟨m, ?_, h2.2.1⟩
      rw [hout, List.mem_filterMap]
      refine ⟨s.parent, ?_, hm⟩
      rw [stableSortBy_mem]
      exact List.mem_map_of_mem (fun p => p.1) (lookupCS_mem hm)
  · intro sites visited H1 H2 H3 H4
    obtain ⟨hnodup, hmem, hcomp, hmin⟩ := minCsFold_full sites visited H1 H2
    constructor
    · intro cs hcs s hs hsp hsne
      simp only [callsites, List.mem_filterMap] at hcs
      obtain ⟨f, _, hf⟩ := hcs
      have hprmem := lookupCS_mem hf
      obtain ⟨hcs_sites, hcs_par, _⟩ := hmem _ hprmem
      obtain ⟨pc, ps, hpc, hps, hlt⟩ := hmin _ hprmem s hs
        (by rw [hsp]; exact hcs_par) hsne
      have hkey : posKey pc ≠ posKey ps :=
        H2 cs hcs_sites s hs (fun he => hsne he.symm) pc ps hpc hps
      constructor
      · rw [csLess_pos hpc hps hkey]
        exact hlt
      · rw [csLess_pos hps hpc (Ne.symm hkey)]
        exact posLess_asymm hlt
    · have hout : callsites sites visited =
          (stableSortBy funcLess
              ((minCsFold sites visited).map (fun p => p.1))).filterMap
            (fun f => lookupCS (minCsFold sites visited) f) := rfl
      rw [hout, List.pairwise_filterMap]
      have hkeysite : ∀ f ∈ (minCsFold sites visited).map (fun p => p.1),
          ∃ c : CallSite, c ∈ sites ∧ c.parent = f := by
        intro f hf
        obtain ⟨pr, hpr, rfl⟩ := List.mem_map.1 hf
        obtain ⟨h1, h2, _⟩ := hmem pr hpr
        exact ⟨pr.2, h1, h2⟩
      have Hfl : ∀ x ∈ (minCsFold sites visited).map (fun p => p.1),
          ∀ y ∈ (minCsFold sites visited).map (fun p => p.1), x ≠ y →
          ∃ px py, x.pos = some px ∧ y.pos = some py ∧
            posKey px ≠ posKey py ∧ funcLess x y = posLess px py ∧
            funcLess y x = posLess py px := by
        intro x hx y hy hxy
        obtain ⟨cx, hcx, hcxp⟩ := hkeysite x hx
        obtain ⟨cy, hcy, hcyp⟩ := hkeysite y hy
        obtain ⟨px, hpx0⟩ := H3 cx hcx
        obtain ⟨py, hpy0⟩ := H3 cy hcy
        have hpx : x.pos = some px := by rw [← hcxp]; exact hpx0
        have hpy : y.pos = some py := by rw [← hcyp]; exact hpy0
        have hk : posKey px ≠ posKey py :=
          H4 cx hcx cy hcy (by rw [hcxp, hcyp]; exact hxy) px py hpx0 hpy0
        exact ⟨px, py, hpx, hpy, hk, funcLess_pos hpx hpy hk,
          funcLess_pos hpy hpx (Ne.symm hk)⟩
      have Htot : ∀ x ∈ (minCsFold sites visited).map (fun p => p.1),
          ∀ y ∈ (minCsFold sites visited).map (fun p => p.1), x ≠ y →
          funcLess x y = true ∨ funcLess y x = true := by
        intro x hx y hy hxy
        obtain ⟨px, py, _, _, hk, he1, he2⟩ := Hfl x hx y hy hxy
        rw [he1, he2]
        exact posLess_total hk
      have Htrans : ∀ x ∈ (minCsFold sites visited).map (fun p => p.1),
          ∀ y ∈ (minCsFold sites visited).map (fun p => p.1),
          ∀ z ∈ (minCsFold sites visited).map (fun p => p.1),
          funcLess x y = true → funcLess y z = true →
          funcLess x z = true := by
        intro x hx y hy z hz h1 h2
        by_cases hxy : x = y
        · subst hxy
          obtain ⟨cx, hcx, hcxp⟩ := hkeysite x hx
          obtain ⟨px, hpx0⟩ := H3 cx hcx
          rw [funcLess_self_of_pos (show x.pos = some px by
            rw [← hcxp]; exact hpx0)] at h1
          cases h1
        · by_cases hyz : y = z
          · subst hyz
            exact h1
          · by_cases hxz : x = z
            · subst hxz
              obtain ⟨px, py, hpx, hpy, hk, he1, he2⟩ := Hfl x hx y hy hxy
              rw [he1] at h1
              rw [he2] at h2
              rw [posLess_asymm h1] at h2
              cases h2
            · obtain ⟨px, py, hpx, hpy, hk1, he1, _⟩ := Hfl x hx y hy hxy
              obtain ⟨py2, pz, hpy2, hpz, hk2, he2, _⟩ := Hfl y hy z hz hyz
              obtain ⟨px2, pz2, hpx2, hpz2, hk3, he3, _⟩ := Hfl x hx z hz hxz
              rw [hpy] at hpy2
              injection hpy2 with hh1
              subst hh1
              rw [hpx] at hpx2
              injection hpx2 with hh2
              subst hh2
              rw [hpz] at hpz2
              injection hpz2 with hh3
              subst hh3
              rw [he1] at h1
              rw [he2] at h2
              rw [he3]
              exact posLess_trans h1 h2
      have hsorted := stableSortBy_pairwise funcLess
        ((minCsFold sites visited).map (fun p => p.1)) Htot Htrans
        ((minCsFold sites visited).map (fun p => p.1)) (fun x hx => hx)
        (minCsFold_keys_nodup sites visited)
      refine List.Pairwise.imp ?_ hsorted
      intro f g hfg x hx y hy
      rw [Option.mem_def] at hx hy
      have h2x := (mem_minCsFold (lookupCS_mem hx)).2.1
      have h2y := (mem_minCsFold (lookupCS_mem hy)).2.1
      rw [h2x, h2y]
      exact hfg

def exCallerW : FuncNode := ⟨5, "h", "", none, some ⟨"w.go", 0, 2, 1⟩⟩

def exW1 : CallSite := ⟨exMain, some ⟨"w.go", 0, 10, 1⟩, true, "", "f"⟩

def exW2 : CallSite := ⟨exCallerW, some ⟨"w.go", 0, 20, 1⟩, true, "", "g"⟩

/-- C4 (witness): the conditional part of `callsites_spec` applied to a
concrete two-caller site list with present, distinct positions. -/
theorem callsites_spec_witness :
    (∀ cs ∈ callsites [exW1, exW2] [], ∀ s ∈ [exW1, exW2],
        s.parent = cs.parent → s ≠ cs →
        csLess cs (some s) = true ∧ csLess s (some cs) = false) ∧
    (callsites [exW1, exW2] []).Pairwise
      (fun a b => funcLess a.parent b.parent = true) :=
  callsites_spec.2 [exW1, exW2] []
    (by
      intro s hs
      fin_cases hs
      · exact ⟨_, rfl⟩
      · exact ⟨_, rfl⟩)
    (by
      intro s hs t ht hne ps pt hps hpt
      fin_cases hs <;> fin_cases ht
      · exact absurd rfl hne
      · injection hps with h1
        injection hpt with h2
        subst h1
        subst h2
        decide
      · injection hps with h1
        injection hpt with h2
        subst h1
        subst h2
        decide
      · exact absurd rfl hne)
    (by
      intro s hs
      fin_cases hs
      · exact ⟨_, rfl⟩
      · exact ⟨_, rfl⟩)
    (by
      intro s hs t ht hne ps pt hps hpt
      fin_cases hs <;> fin_cases ht
      · exact absurd rfl hne
      · injection hps with h1
        injection hpt with h2
        subst h1
        subst h2
        decide
      · injection hps with h1
        injection hpt with h2
        subst h1
        subst h2
        decide
      · exact absurd rfl hne)
